import Mathlib

/-!
Verification of the diff engine in `src/enkube/diff.py`.

The embedding covers `interleave`, `gather_objects`, `calculate_changes`,
`diff_ns` and `diff_obj`.  Records are modelled as dynamically shaped
values (`Value`); Python `OrderedDict`s are modelled as association lists
with insertion-order semantics (update-in-place keeps the position of an
existing key, a fresh key is appended at the end).  Python's `is` test on
the two input collections of `calculate_changes` is modelled by tagging
items from the first source with `0` and items from the second with `1`;
when the two collections are one and the same Python object the branch
conditions of the source collapse to the membership tests alone, so the
tagged model is observationally identical there as well.
-/

namespace Enkube

mutual

/-- A dynamically shaped record value: the tree of mappings, sequences and
scalars that a parsed manifest takes in the source (`dict`, `list`, `str`,
`int`, `bool`, `None`).  Mappings keep their fields in insertion order, as
Python dicts do. -/
inductive Value where
  | null : Value
  | bool (b : Bool) : Value
  | int (n : Int) : Value
  | str (s : String) : Value
  | arr (elems : VList) : Value
  | obj (fields : FList) : Value
deriving DecidableEq

/-- A sequence of values (the elements of a `list` value). -/
inductive VList where
  | nil : VList
  | cons (v : Value) (rest : VList) : VList
deriving DecidableEq

/-- The ordered field list of a mapping value. -/
inductive FList where
  | nil : FList
  | cons (key : String) (v : Value) (rest : FList) : FList
deriving DecidableEq

end

/-- First-match field lookup in a mapping's field list. -/
def FList.lookup : FList → String → Option Value
  | .nil, _ => none
  | .cons k v rest, key => if k = key then some v else FList.lookup rest key

/-- First-match lookup in an insertion-ordered association list, the model
of `d[k]` / `d.get(k)` on a Python mapping. -/
def odLookup {κ ν : Type} [DecidableEq κ] : List (κ × ν) → κ → Option ν
  | [], _ => none
  | (k', v) :: rest, k => if k' = k then some v else odLookup rest k

/-- Membership test, the model of `k in d` on a Python mapping. -/
def odContains {κ ν : Type} [DecidableEq κ] (l : List (κ × ν)) (k : κ) : Bool :=
  (odLookup l k).isSome

/-- The model of `d[k] = v` on a Python mapping: an existing key keeps its
position and gets the new value, a fresh key is appended at the end. -/
def odInsert {κ ν : Type} [DecidableEq κ] : List (κ × ν) → κ → ν → List (κ × ν)
  | [], k, v => [(k, v)]
  | (k', v') :: rest, k, v =>
      if k' = k then (k, v) :: rest else (k', v') :: odInsert rest k v

/-- The key sequence of a mapping in insertion order, the model of
iterating a Python mapping. -/
def odKeys {κ ν : Type} (l : List (κ × ν)) : List κ := l.map Prod.fst

/-- A namespace bucket: ordered mapping from `(kind, name)` to the record,
as built by `gather_objects`. -/
abbrev Bucket := List ((Value × Value) × Value)

/-- The two-level hierarchy: ordered mapping from namespace identifier to
its bucket. -/
abbrev Hierarchy := List (Value × Bucket)

/-- The queue loop of `interleave` (src/enkube/diff.py lines 28-36): pop
the front source, drop it if exhausted, otherwise yield its next item and
requeue it at the back. -/
def interleaveQ {α : Type} : List (Nat × List α) → List (Nat × α)
  | [] => []
  | (_, []) :: q => interleaveQ q
  | (i, x :: xs) :: q => (i, x) :: interleaveQ (q ++ [(i, xs)])
termination_by q => (q.map fun p => p.2.length + 1).sum
decreasing_by
  · simp
  · simp [List.map_append, List.sum_append]
    omega

/-- `interleave(*iters)`: sources are tagged with their position, which
stands for the Python object identity used downstream. -/
def interleave {α : Type} (iters : List (List α)) : List (Nat × α) :=
  interleaveQ iters.enum

/-- A change event, exactly the tagged tuples yielded by the diff engine. -/
inductive Event where
  | delete_ns (ns : Value)
  | add_ns (ns : Value)
  | delete_obj (ns k n : Value)
  | add_obj (ns k n : Value)
  | change_obj (ns k n : Value)
deriving DecidableEq

/-- `diff_obj` (src/enkube/diff.py lines 85-87).  The two arguments are the
lookups `objs1[k,n]` and `objs2[k,n]`; on every input reachable from
`diff_ns` both are `some`. -/
def diff_obj (ns k n : Value) (obj1 obj2 : Option Value) : List Event :=
  if obj1 ≠ obj2 then [.change_obj ns k n] else []

/-- The shared loop shape of `calculate_changes` and `diff_ns`: walk the
interleaved tagged keys, skip keys already in the `seen` set, and hand each
fresh key to the classifying body `f`. -/
def dedupGo {κ : Type} [DecidableEq κ] (f : Nat × κ → List Event) :
    List (Nat × κ) → List κ → List Event
  | [], _ => []
  | p :: rest, seen =>
      if p.2 ∈ seen then dedupGo f rest seen
      else f p ++ dedupGo f rest (p.2 :: seen)

/-- The classifying body of the loop in `diff_ns` (src/enkube/diff.py
lines 72-82): tag `0` is `objs1` (cluster side), tag `1` is `objs2`. -/
def objHandler (ns : Value) (objs1 objs2 : Bucket) (p : Nat × (Value × Value)) : List Event :=
  if p.1 = 0 ∧ ¬ odContains objs2 p.2 then [.delete_obj ns p.2.1 p.2.2]
  else if p.1 = 1 ∧ ¬ odContains objs1 p.2 then [.add_obj ns p.2.1 p.2.2]
  else diff_obj ns p.2.1 p.2.2 (odLookup objs1 p.2) (odLookup objs2 p.2)

/-- `diff_ns` (src/enkube/diff.py lines 70-82). -/
def diff_ns (ns : Value) (objs1 objs2 : Bucket) : List Event :=
  dedupGo (objHandler ns objs1 objs2) (interleave [odKeys objs1, odKeys objs2]) []

/-- The classifying body of the loop in `calculate_changes`
(src/enkube/diff.py lines 57-67): tag `0` is `items1` (cluster side), tag
`1` is `items2` (local side).  The bucket lookups in the shared branch are
total with default `[]`; on every input reachable from the loop the
namespace is present on both sides. -/
def nsHandler (items1 items2 : Hierarchy) (p : Nat × Value) : List Event :=
  if p.1 = 0 ∧ ¬ odContains items2 p.2 then [.delete_ns p.2]
  else if p.1 = 1 ∧ ¬ odContains items1 p.2 then [.add_ns p.2]
  else diff_ns p.2 ((odLookup items1 p.2).getD []) ((odLookup items2 p.2).getD [])

/-- `calculate_changes` (src/enkube/diff.py lines 55-67). -/
def calculate_changes (items1 items2 : Hierarchy) : List Event :=
  dedupGo (nsHandler items1 items2) (interleave [odKeys items1, odKeys items2]) []

/-- Modelled from the spec: `flatten_kube_lists` is imported from
`.util`, which is not part of the sources; per the spec, flattening
list-wrapper objects is an external collaborator concern and the builder
accepts an already-flat record sequence, on which flattening is the
identity. -/
def flatten_kube_lists (items : List Value) : List Value := items

/-- Field lookup on a record, the model of `obj[key]` on a `dict` value
(`none` both when the key is absent and when the value is not a mapping;
the caller decides whether that is an error). -/
def dictGet : Value → String → Option Value
  | .obj fields, key => fields.lookup key
  | _, _ => none

/-- One iteration of the loop body of `gather_objects` (src/enkube/diff.py
lines 41-51).  A record that is not a mapping, has no `metadata` key, or
whose `metadata` value is not a mapping makes the source raise
(`TypeError` / `KeyError` / `AttributeError`); this is modelled by
`Except.error`. -/
def gather_step (namespaces : Hierarchy) (obj : Value) : Except String Hierarchy :=
  match obj with
  | .obj fields =>
    if (fields.lookup "kind").isNone then .ok namespaces
    else
      match fields.lookup "metadata" with
      | some (.obj md) =>
        let ns := (md.lookup "namespace").getD .null
        let k := (fields.lookup "kind").getD .null
        let n := (md.lookup "name").getD .null
        let namespaces1 :=
          if odContains namespaces ns then namespaces else namespaces ++ [(ns, [])]
        let namespaces2 :=
          if k = .str "Namespace" ∧ ¬ odContains namespaces1 n
          then namespaces1 ++ [(n, [])] else namespaces1
        .ok (odInsert namespaces2 ns
              (odInsert ((odLookup namespaces2 ns).getD []) (k, n) obj))
      | some _ => .error "AttributeError: metadata value has no get method"
      | none => .error "KeyError: metadata"
  | _ => .error "TypeError: record is not a mapping"

/-- The loop of `gather_objects`, threading the ordered mapping through the
record sequence. -/
def gather_objects_aux : Hierarchy → List Value → Except String Hierarchy
  | acc, [] => .ok acc
  | acc, obj :: rest =>
      match gather_step acc obj with
      | .ok acc' => gather_objects_aux acc' rest
      | .error e => .error e

/-- `gather_objects` (src/enkube/diff.py lines 39-52). -/
def gather_objects (items : List Value) : Except String Hierarchy :=
  gather_objects_aux [] (flatten_kube_lists items)

/-- All records stored in a hierarchy, iterating namespaces then keys in
insertion order. -/
def flattenH (h : Hierarchy) : List Value :=
  h.flatMap fun p => p.2.map Prod.snd

/-- The model of `obj["metadata"].get(field)` for a stored record, with
Python `None` rendered as `null` (the fallback branches are unreachable
for records the builder actually stores). -/
def metaGet (r : Value) (field : String) : Value :=
  match r with
  | .obj fields =>
    match fields.lookup "metadata" with
    | some (.obj md) => (md.lookup field).getD .null
    | _ => .null
  | _ => .null

/-- The grouping identity of a record: the value of its `kind` key, its
`metadata.get("name")` and its `metadata.get("namespace")` — `none` when
the record has no `kind` key or its `metadata` is not a mapping (exactly
the records the builder skips or raises on). -/
def identOf (r : Value) : Option (Value × Value × Value) :=
  match r with
  | .obj fields =>
    match fields.lookup "kind" with
    | none => none
    | some k =>
      match fields.lookup "metadata" with
      | some (.obj md) =>
          some (k, (md.lookup "name").getD .null, (md.lookup "namespace").getD .null)
      | _ => none
  | _ => none

/-- Every record stored in the hierarchy carries exactly the identity
fields of its storage location. -/
def StoredOk (acc : Hierarchy) : Prop :=
  ∀ ns b, odLookup acc ns = some b → ∀ k n r, odLookup b (k, n) = some r →
    identOf r = some (k, n, ns)

/-- Keep the first occurrence of each element not already in `seen`,
accumulating seen elements in order. -/
def dedupF (seen : List Value) : List Value → List Value
  | [] => []
  | x :: xs => if x ∈ seen then dedupF seen xs else x :: dedupF (seen ++ [x]) xs

/-- The namespace identifiers one record makes the builder create buckets
for, in creation order: its own `metadata.namespace`, then — for a record
of kind `Namespace` — its own `name`. -/
def discoverOne (obj : Value) : List Value :=
  match obj with
  | .obj fields =>
    if (fields.lookup "kind").isNone then []
    else
      match fields.lookup "metadata" with
      | some (.obj md) =>
          ((md.lookup "namespace").getD .null) ::
            (if (fields.lookup "kind").getD .null = .str "Namespace"
             then [(md.lookup "name").getD .null] else [])
      | _ => []
  | _ => []

/-- All bucket identifiers an input sequence makes the builder create, in
discovery order (with repetitions). -/
def discover (items : List Value) : List Value := items.flatMap discoverOne

/-! ### Ordered-mapping lemmas -/

theorem odLookup_mem_keys {κ ν : Type} [DecidableEq κ] {l : List (κ × ν)} {k : κ} {v : ν}
    (h : odLookup l k = some v) : k ∈ odKeys l := by
  induction l with
  | nil => simp [odLookup] at h
  | cons p rest ih =>
    by_cases hk : p.1 = k
    · simp [odKeys, hk]
    · rw [show p = (p.1, p.2) from rfl] at h
      simp only [odLookup, if_neg hk] at h
      simp [odKeys] at ih ⊢
      exact Or.inr (ih h)

theorem odContains_mem_keys {κ ν : Type} [DecidableEq κ] {l : List (κ × ν)} {k : κ}
    (h : odContains l k = true) : k ∈ odKeys l := by
  rcases Option.isSome_iff_exists.mp h with ⟨v, hv⟩
  exact odLookup_mem_keys hv

theorem odLookup_append {κ ν : Type} [DecidableEq κ] (l₁ l₂ : List (κ × ν)) (k : κ) :
    odLookup (l₁ ++ l₂) k =
      match odLookup l₁ k with
      | some v => some v
      | none => odLookup l₂ k := by
  induction l₁ with
  | nil => simp [odLookup]
  | cons p rest ih =>
    by_cases hk : p.1 = k
    · rw [show p = (p.1, p.2) from rfl]
      simp [odLookup, hk]
    · rw [show p = (p.1, p.2) from rfl]
      simp only [List.cons_append, odLookup, if_neg hk]
      exact ih

theorem odLookup_odInsert_self {κ ν : Type} [DecidableEq κ] (l : List (κ × ν)) (k : κ) (v : ν) :
    odLookup (odInsert l k v) k = some v := by
  induction l with
  | nil => simp [odInsert, odLookup]
  | cons p rest ih =>
    by_cases hk : p.1 = k
    · rw [show p = (p.1, p.2) from rfl]
      simp [odInsert, odLookup, hk]
    · rw [show p = (p.1, p.2) from rfl]
      simp [odInsert, odLookup, hk, ih]

theorem odLookup_odInsert_ne {κ ν : Type} [DecidableEq κ] (l : List (κ × ν)) (k k' : κ) (v : ν)
    (hne : k ≠ k') : odLookup (odInsert l k v) k' = odLookup l k' := by
  induction l with
  | nil => simp [odInsert, odLookup, hne]
  | cons p rest ih =>
    by_cases hk : p.1 = k
    · rw [show p = (p.1, p.2) from rfl]
      simp [odInsert, odLookup, hk, hne]
    · rw [show p = (p.1, p.2) from rfl]
      simp only [odInsert, if_neg hk, odLookup]
      by_cases hk' : p.1 = k' <;> simp [hk', ih]

theorem odKeys_odInsert_of_contains {κ ν : Type} [DecidableEq κ] (l : List (κ × ν)) (k : κ)
    (v : ν) (h : odContains l k = true) : odKeys (odInsert l k v) = odKeys l := by
  induction l with
  | nil => simp [odContains, odLookup] at h
  | cons p rest ih =>
    by_cases hk : p.1 = k
    · rw [show p = (p.1, p.2) from rfl]
      simp [odInsert, odKeys, hk]
    · rw [show p = (p.1, p.2) from rfl] at h ⊢
      simp only [odContains, odLookup, if_neg hk] at h
      simp only [odInsert, if_neg hk, odKeys, List.map_cons]
      have := ih h
      simp only [odKeys] at this
      rw [this]

/-! ### Interleaver equations

`interleaveQ` is defined by well-founded recursion, so concrete runs are
computed through the following propositional equations. -/

theorem interleaveQ_nil {α : Type} : interleaveQ ([] : List (Nat × List α)) = [] := by
  simp [interleaveQ]

theorem interleaveQ_drop {α : Type} (i : Nat) (q : List (Nat × List α)) :
    interleaveQ ((i, []) :: q) = interleaveQ q := by
  simp [interleaveQ]

theorem interleaveQ_yield {α : Type} (i : Nat) (x : α) (xs : List α)
    (q : List (Nat × List α)) :
    interleaveQ ((i, x :: xs) :: q) = (i, x) :: interleaveQ (q ++ [(i, xs)]) := by
  simp [interleaveQ]

theorem interleaveQ_single {α : Type} (i : Nat) (l : List α) :
    interleaveQ [(i, l)] = l.map fun x => (i, x) := by
  induction l with
  | nil => rw [interleaveQ_drop, interleaveQ_nil]; simp
  | cons x xs ih => rw [interleaveQ_yield]; simpa using ih

theorem interleave_two_nil_left {α : Type} (ys : List α) :
    interleave [[], ys] = ys.map fun y => (1, y) := by
  unfold interleave
  rw [show ([[], ys] : List (List α)).enum = [(0, []), (1, ys)] from rfl,
    interleaveQ_drop, interleaveQ_single]

theorem interleave_two_cons_nil {α : Type} (x : α) (xs : List α) :
    interleave [x :: xs, []] = (0, x) :: xs.map fun a => (0, a) := by
  unfold interleave
  rw [show ([x :: xs, []] : List (List α)).enum = [(0, x :: xs), (1, [])] from rfl,
    interleaveQ_yield]
  simp [interleaveQ_drop, interleaveQ_single]

theorem interleave_two_cons_cons {α : Type} (x y : α) (xs ys : List α) :
    interleave [x :: xs, y :: ys] = (0, x) :: (1, y) :: interleave [xs, ys] := by
  unfold interleave
  rw [show ([x :: xs, y :: ys] : List (List α)).enum = [(0, x :: xs), (1, y :: ys)] from rfl,
    interleaveQ_yield]
  simp only [List.nil_append, interleaveQ_yield, List.cons_append]
  rw [show ([xs, ys] : List (List α)).enum = [(0, xs), (1, ys)] from rfl]

/-! ### Properties of the two-source interleaver -/

theorem interleave_two_length {α : Type} (xs ys : List α) :
    (interleave [xs, ys]).length = xs.length + ys.length := by
  induction xs generalizing ys with
  | nil => simp [interleave_two_nil_left]
  | cons x xs ih =>
    cases ys with
    | nil => simp [interleave_two_cons_nil]
    | cons y ys =>
      simp only [interleave_two_cons_cons, List.length_cons, ih]
      omega

theorem interleave_two_filterMap_left {α : Type} (xs ys : List α) :
    (interleave [xs, ys]).filterMap (fun p => if p.1 = 0 then some p.2 else none) = xs := by
  induction xs generalizing ys with
  | nil => simp [interleave_two_nil_left, List.filterMap_map, Function.comp]
  | cons x xs ih =>
    cases ys with
    | nil => simp [interleave_two_cons_nil, List.filterMap_map, Function.comp_def]
    | cons y ys => simp [interleave_two_cons_cons, ih]

theorem interleave_two_filterMap_right {α : Type} (xs ys : List α) :
    (interleave [xs, ys]).filterMap (fun p => if p.1 = 1 then some p.2 else none) = ys := by
  induction xs generalizing ys with
  | nil => simp [interleave_two_nil_left, List.filterMap_map, Function.comp_def]
  | cons x xs ih =>
    cases ys with
    | nil => simp [interleave_two_cons_nil, List.filterMap_map, Function.comp]
    | cons y ys => simp [interleave_two_cons_cons, ih]

theorem interleave_two_mem {α : Type} {xs ys : List α} {p : Nat × α}
    (h : p ∈ interleave [xs, ys]) : (p.1 = 0 ∧ p.2 ∈ xs) ∨ (p.1 = 1 ∧ p.2 ∈ ys) := by
  induction xs generalizing ys with
  | nil =>
    rw [interleave_two_nil_left] at h
    rcases List.mem_map.mp h with ⟨y, hy, rfl⟩
    exact Or.inr ⟨rfl, hy⟩
  | cons x xs ih =>
    cases ys with
    | nil =>
      rw [interleave_two_cons_nil] at h
      rcases List.mem_cons.mp h with rfl | h
      · exact Or.inl ⟨rfl, List.mem_cons_self _ _⟩
      · rcases List.mem_map.mp h with ⟨a, ha, rfl⟩
        exact Or.inl ⟨rfl, List.mem_cons_of_mem _ ha⟩
    | cons y ys =>
      rw [interleave_two_cons_cons] at h
      rcases List.mem_cons.mp h with rfl | h
      · exact Or.inl ⟨rfl, List.mem_cons_self _ _⟩
      rcases List.mem_cons.mp h with rfl | h
      · exact Or.inr ⟨rfl, List.mem_cons_self _ _⟩
      rcases ih h with ⟨h0, hm⟩ | ⟨h1, hm⟩
      · exact Or.inl ⟨h0, List.mem_cons_of_mem _ hm⟩
      · exact Or.inr ⟨h1, List.mem_cons_of_mem _ hm⟩

theorem interleave_two_mem_left {α : Type} {xs : List α} {a : α} (ys : List α)
    (h : a ∈ xs) : (0, a) ∈ interleave [xs, ys] := by
  have := interleave_two_filterMap_left xs ys
  rw [show xs = (interleave [xs, ys]).filterMap
      (fun p => if p.1 = 0 then some p.2 else none) from this.symm] at h
  rcases List.mem_filterMap.mp h with ⟨p, hp, hsome⟩
  by_cases h0 : p.1 = 0
  · simp only [if_pos h0] at hsome
    cases hsome
    rw [show p = (p.1, p.2) from rfl] at hp
    rw [h0] at hp
    exact hp
  · simp [if_neg h0] at hsome

theorem interleave_two_mem_right {α : Type} {ys : List α} {a : α} (xs : List α)
    (h : a ∈ ys) : (1, a) ∈ interleave [xs, ys] := by
  have := interleave_two_filterMap_right xs ys
  rw [show ys = (interleave [xs, ys]).filterMap
      (fun p => if p.1 = 1 then some p.2 else none) from this.symm] at h
  rcases List.mem_filterMap.mp h with ⟨p, hp, hsome⟩
  by_cases h1 : p.1 = 1
  · simp only [if_pos h1] at hsome
    cases hsome
    rw [show p = (p.1, p.2) from rfl] at hp
    rw [h1] at hp
    exact hp
  · simp [if_neg h1] at hsome

/-- C5: for two finite sources of lengths m and n, `interleave` produces
exactly m + n tagged items, and selecting the items of either source (by
its tag) recovers that source exactly — so every item of each source
appears exactly once and in its original relative order. -/
theorem interleave_round_robin {α : Type} (xs ys : List α) :
    (interleave [xs, ys]).length = xs.length + ys.length ∧
    (interleave [xs, ys]).filterMap (fun p => if p.1 = 0 then some p.2 else none) = xs ∧
    (interleave [xs, ys]).filterMap (fun p => if p.1 = 1 then some p.2 else none) = ys :=
  ⟨interleave_two_length xs ys, interleave_two_filterMap_left xs ys,
    interleave_two_filterMap_right xs ys⟩

/-! ### Generic lemmas about the dedup loop -/

theorem odContains_of_mem_keys {κ ν : Type} [DecidableEq κ] {l : List (κ × ν)} {k : κ}
    (h : k ∈ odKeys l) : odContains l k = true := by
  induction l with
  | nil => simp [odKeys] at h
  | cons p rest ih =>
    by_cases hk : p.1 = k
    · rw [show p = (p.1, p.2) from rfl]
      simp [odContains, odLookup, hk]
    · rw [show p = (p.1, p.2) from rfl]
      simp only [odContains, odLookup, if_neg hk]
      simp only [odKeys, List.map_cons, List.mem_cons] at h
      rcases h with h | h
      · exact absurd h.symm hk
      · exact ih h

theorem dedupGo_eq_nil {κ : Type} [DecidableEq κ] (f : Nat × κ → List Event)
    (L : List (Nat × κ)) (seen : List κ) (h : ∀ p ∈ L, f p = []) :
    dedupGo f L seen = [] := by
  induction L generalizing seen with
  | nil => rfl
  | cons p rest ih =>
    have hrest : ∀ q ∈ rest, f q = [] := fun q hq => h q (List.mem_cons_of_mem _ hq)
    by_cases hp : p.2 ∈ seen
    · simp [dedupGo, hp, ih _ hrest]
    · simp [dedupGo, hp, h p (List.mem_cons_self _ _), ih _ hrest]

theorem dedupGo_forall {κ : Type} [DecidableEq κ] (f : Nat × κ → List Event)
    (L : List (Nat × κ)) (seen : List κ) (Q : Event → Prop)
    (h : ∀ p ∈ L, ∀ e ∈ f p, Q e) : ∀ e ∈ dedupGo f L seen, Q e := by
  induction L generalizing seen with
  | nil => intro e he; simp [dedupGo] at he
  | cons p rest ih =>
    have hrest : ∀ q ∈ rest, ∀ e ∈ f q, Q e :=
      fun q hq => h q (List.mem_cons_of_mem _ hq)
    intro e he
    by_cases hp : p.2 ∈ seen
    · rw [show dedupGo f (p :: rest) seen = dedupGo f rest seen by simp [dedupGo, hp]] at he
      exact ih _ hrest e he
    · rw [show dedupGo f (p :: rest) seen = f p ++ dedupGo f rest (p.2 :: seen) by
        simp [dedupGo, hp]] at he
      rcases List.mem_append.mp he with he | he
      · exact h p (List.mem_cons_self _ _) e he
      · exact ih _ hrest e he

theorem dedupGo_countP_zero {κ : Type} [DecidableEq κ] (f : Nat × κ → List Event)
    (P : Event → Bool) (L : List (Nat × κ)) (seen : List κ) (k₀ : κ)
    (hk : k₀ ∈ seen)
    (honly : ∀ p ∈ L, p.2 ≠ k₀ → ∀ e ∈ f p, P e = false) :
    (dedupGo f L seen).countP P = 0 := by
  induction L generalizing seen with
  | nil => simp [dedupGo]
  | cons p rest ih =>
    have hrest : ∀ q ∈ rest, q.2 ≠ k₀ → ∀ e ∈ f q, P e = false :=
      fun q hq => honly q (List.mem_cons_of_mem _ hq)
    by_cases hp : p.2 ∈ seen
    · simpa [dedupGo, hp] using ih seen hk hrest
    · have hne : p.2 ≠ k₀ := fun h => hp (h ▸ hk)
      have hzero : (f p).countP P = 0 :=
        List.countP_eq_zero.mpr (by
          intro e he
          simpa using honly p (List.mem_cons_self _ _) hne e he)
      simp only [dedupGo, if_neg hp, List.countP_append, hzero]
      simpa using ih (p.2 :: seen) (List.mem_cons_of_mem _ hk) hrest

theorem dedupGo_countP_eq {κ : Type} [DecidableEq κ] (f : Nat × κ → List Event)
    (P : Event → Bool) (L : List (Nat × κ)) (seen : List κ) (k₀ : κ) (c : Nat)
    (hnotseen : k₀ ∉ seen)
    (hmem : k₀ ∈ L.map Prod.snd)
    (honly : ∀ p ∈ L, p.2 ≠ k₀ → ∀ e ∈ f p, P e = false)
    (hat : ∀ p ∈ L, p.2 = k₀ → (f p).countP P = c) :
    (dedupGo f L seen).countP P = c := by
  induction L generalizing seen with
  | nil => simp at hmem
  | cons p rest ih =>
    have hrestonly : ∀ q ∈ rest, q.2 ≠ k₀ → ∀ e ∈ f q, P e = false :=
      fun q hq => honly q (List.mem_cons_of_mem _ hq)
    have hrestat : ∀ q ∈ rest, q.2 = k₀ → (f q).countP P = c :=
      fun q hq => hat q (List.mem_cons_of_mem _ hq)
    by_cases hp : p.2 ∈ seen
    · have hne : p.2 ≠ k₀ := fun h => hnotseen (h ▸ hp)
      have hmem' : k₀ ∈ rest.map Prod.snd := by
        simp only [List.map_cons, List.mem_cons] at hmem
        rcases hmem with h | h
        · exact absurd h.symm hne
        · exact h
      simpa [dedupGo, hp] using ih seen hnotseen hmem' hrestonly hrestat
    · by_cases hk : p.2 = k₀
      · have hz : (dedupGo f rest (p.2 :: seen)).countP P = 0 :=
          dedupGo_countP_zero f P rest (p.2 :: seen) k₀ (hk ▸ List.mem_cons_self _ _)
            hrestonly
        simp only [dedupGo, if_neg hp, List.countP_append, hz,
          hat p (List.mem_cons_self _ _) hk, Nat.add_zero]
      · have hmem' : k₀ ∈ rest.map Prod.snd := by
          simp only [List.map_cons, List.mem_cons] at hmem
          rcases hmem with h | h
          · exact absurd h.symm hk
          · exact h
        have hzero : (f p).countP P = 0 :=
          List.countP_eq_zero.mpr (by
            intro e he
            simpa using honly p (List.mem_cons_self _ _) hk e he)
        have hns' : k₀ ∉ p.2 :: seen := by
          intro h
          rcases List.mem_cons.mp h with h | h
          · exact hk h.symm
          · exact hnotseen h
        simp only [dedupGo, if_neg hp, List.countP_append, hzero]
        simpa using ih (p.2 :: seen) hns' hmem' hrestonly hrestat

theorem dedupGo_countP_le {κ : Type} [DecidableEq κ] (f : Nat × κ → List Event)
    (P : Event → Bool) (L : List (Nat × κ)) (seen : List κ) (k₀ : κ) (c : Nat)
    (honly : ∀ p ∈ L, p.2 ≠ k₀ → ∀ e ∈ f p, P e = false)
    (hat : ∀ p ∈ L, p.2 = k₀ → (f p).countP P ≤ c) :
    (dedupGo f L seen).countP P ≤ c := by
  induction L generalizing seen with
  | nil => simp [dedupGo]
  | cons p rest ih =>
    have hrestonly : ∀ q ∈ rest, q.2 ≠ k₀ → ∀ e ∈ f q, P e = false :=
      fun q hq => honly q (List.mem_cons_of_mem _ hq)
    have hrestat : ∀ q ∈ rest, q.2 = k₀ → (f q).countP P ≤ c :=
      fun q hq => hat q (List.mem_cons_of_mem _ hq)
    by_cases hp : p.2 ∈ seen
    · simpa [dedupGo, hp] using ih seen hrestonly hrestat
    · by_cases hk : p.2 = k₀
      · have hz : (dedupGo f rest (p.2 :: seen)).countP P = 0 :=
          dedupGo_countP_zero f P rest (p.2 :: seen) k₀ (hk ▸ List.mem_cons_self _ _)
            hrestonly
        simp only [dedupGo, if_neg hp, List.countP_append, hz, Nat.add_zero]
        exact hat p (List.mem_cons_self _ _) hk
      · have hzero : (f p).countP P = 0 :=
          List.countP_eq_zero.mpr (by
            intro e he
            simpa using honly p (List.mem_cons_self _ _) hk e he)
        simp only [dedupGo, if_neg hp, List.countP_append, hzero, Nat.zero_add]
        exact ih (p.2 :: seen) hrestonly hrestat

/-! ### The diff of a hierarchy against itself -/

theorem diff_ns_self (ns : Value) (b : Bucket) : diff_ns ns b b = [] := by
  unfold diff_ns
  apply dedupGo_eq_nil
  intro p hp
  have hm : p.2 ∈ odKeys b := by
    rcases interleave_two_mem hp with ⟨_, hm⟩ | ⟨_, hm⟩ <;> exact hm
  have hc := odContains_of_mem_keys hm
  simp [objHandler, hc, diff_obj]

/-- C4: diffing any hierarchy against itself yields the empty event
sequence. -/
theorem calculate_changes_self (H : Hierarchy) : calculate_changes H H = [] := by
  unfold calculate_changes
  apply dedupGo_eq_nil
  intro p hp
  have hm : p.2 ∈ odKeys H := by
    rcases interleave_two_mem hp with ⟨_, hm⟩ | ⟨_, hm⟩ <;> exact hm
  have hc := odContains_of_mem_keys hm
  simp [nsHandler, hc, diff_ns_self]

/-! ### Pure deletion and pure addition of a namespace -/

/-- C6: when the cluster side has namespace "b" with one record and the
local side is empty, `calculate_changes` yields exactly the single event
`DeleteNamespace "b"`; in particular no record-level event is produced, so
record-level diffing is never entered for that namespace. -/
theorem pure_deletion_delete_ns_only :
    calculate_changes
      [(Value.str "b",
        [((Value.str "ConfigMap", Value.str "x"),
          Value.obj (.cons "kind" (.str "ConfigMap")
            (.cons "metadata" (.obj (.cons "namespace" (.str "b")
              (.cons "name" (.str "x") .nil))) .nil)))])]
      [] = [Event.delete_ns (.str "b")] := by
  unfold calculate_changes
  rw [show odKeys ([(Value.str "b",
      [((Value.str "ConfigMap", Value.str "x"),
        Value.obj (.cons "kind" (.str "ConfigMap")
          (.cons "metadata" (.obj (.cons "namespace" (.str "b")
            (.cons "name" (.str "x") .nil))) .nil)))])] : Hierarchy)
      = [Value.str "b"] from rfl,
    show odKeys ([] : Hierarchy) = [] from rfl, interleave_two_cons_nil]
  simp [dedupGo, nsHandler, odContains, odLookup]

/-- C1 (corrected): with an empty cluster side and a local side holding
exactly namespace "a" with one ConfigMap "x", `calculate_changes` yields
exactly the single event `AddNamespace "a"`; no record-level event is
emitted, because record-level diffing is entered only for a namespace
present on both sides. -/
theorem pure_addition_add_ns_only :
    calculate_changes []
      [(Value.str "a",
        [((Value.str "ConfigMap", Value.str "x"),
          Value.obj (.cons "kind" (.str "ConfigMap")
            (.cons "metadata" (.obj (.cons "namespace" (.str "a")
              (.cons "name" (.str "x") .nil))) .nil)))])]
      = [Event.add_ns (.str "a")] := by
  unfold calculate_changes
  rw [show odKeys ([] : Hierarchy) = [] from rfl,
    show odKeys ([(Value.str "a",
      [((Value.str "ConfigMap", Value.str "x"),
        Value.obj (.cons "kind" (.str "ConfigMap")
          (.cons "metadata" (.obj (.cons "namespace" (.str "a")
            (.cons "name" (.str "x") .nil))) .nil)))])] : Hierarchy)
      = [Value.str "a"] from rfl, interleave_two_nil_left]
  simp [dedupGo, nsHandler, odContains, odLookup]

/-- C1 (counterexample): the claimed event sequence
`[AddNamespace "a", AddRecord ("a","ConfigMap","x")]` is not what
`calculate_changes` produces on the pure-addition input — the engine
yields the namespace-level event only. -/
theorem pure_addition_claim_false :
    calculate_changes []
      [(Value.str "a",
        [((Value.str "ConfigMap", Value.str "x"),
          Value.obj (.cons "kind" (.str "ConfigMap")
            (.cons "metadata" (.obj (.cons "namespace" (.str "a")
              (.cons "name" (.str "x") .nil))) .nil)))])]
      ≠ [Event.add_ns (.str "a"),
         Event.add_obj (.str "a") (.str "ConfigMap") (.str "x")] := by
  have h : calculate_changes []
      [(Value.str "a",
        [((Value.str "ConfigMap", Value.str "x"),
          Value.obj (.cons "kind" (.str "ConfigMap")
            (.cons "metadata" (.obj (.cons "namespace" (.str "a")
              (.cons "name" (.str "x") .nil))) .nil)))])]
      = [Event.add_ns (.str "a")] := by
    unfold calculate_changes
    rw [show odKeys ([] : Hierarchy) = [] from rfl,
      show odKeys ([(Value.str "a",
        [((Value.str "ConfigMap", Value.str "x"),
          Value.obj (.cons "kind" (.str "ConfigMap")
            (.cons "metadata" (.obj (.cons "namespace" (.str "a")
              (.cons "name" (.str "x") .nil))) .nil)))])] : Hierarchy)
        = [Value.str "a"] from rfl, interleave_two_nil_left]
    simp [dedupGo, nsHandler, odContains, odLookup]
  rw [h]
  simp

/-! ### Shape and counting lemmas for the record-level diff -/

theorem diff_ns_event_shape (ns : Value) (o1 o2 : Bucket) :
    ∀ e ∈ diff_ns ns o1 o2, ∃ k n,
      e = Event.delete_obj ns k n ∨ e = Event.add_obj ns k n ∨
        e = Event.change_obj ns k n := by
  unfold diff_ns
  apply dedupGo_forall
  intro p _ e he
  obtain ⟨i, pk, pn⟩ := p
  unfold objHandler at he
  split_ifs at he with h1 h2
  · simp only [List.mem_singleton] at he
    exact ⟨pk, pn, Or.inl he⟩
  · simp only [List.mem_singleton] at he
    exact ⟨pk, pn, Or.inr (Or.inl he)⟩
  · unfold diff_obj at he
    split_ifs at he with h3
    · simp only [List.mem_singleton] at he
      exact ⟨pk, pn, Or.inr (Or.inr he)⟩
    · simp at he

theorem diff_ns_countP_change (ns k n : Value) (o1 o2 : Bucket) (r1 r2 : Value)
    (h1 : odLookup o1 (k, n) = some r1) (h2 : odLookup o2 (k, n) = some r2)
    (hne : r1 ≠ r2) :
    (diff_ns ns o1 o2).countP (fun e => decide (e = Event.change_obj ns k n)) = 1 := by
  unfold diff_ns
  apply dedupGo_countP_eq _ _ _ _ ((k, n) : Value × Value) 1
  · simp
  · exact List.mem_map.mpr
      ⟨(0, (k, n)), interleave_two_mem_left _ (odLookup_mem_keys h1), rfl⟩
  · intro p _ hpne e he
    obtain ⟨i, pk, pn⟩ := p
    unfold objHandler at he
    have hkey : ¬(pk = k ∧ pn = n) := by
      intro hc
      exact hpne (by simp [hc.1, hc.2])
    split_ifs at he with hb1 hb2
    · simp only [List.mem_singleton] at he
      simp [he]
    · simp only [List.mem_singleton] at he
      simp [he]
    · unfold diff_obj at he
      split_ifs at he with h3
      · simp only [List.mem_singleton] at he
        simp only [he, decide_eq_false_iff_not]
        intro hc
        injection hc with hc1 hc2 hc3
        exact hkey ⟨hc2, hc3⟩
      · simp at he
  · intro p _ hpk
    have hc1 : odContains o1 (k, n) = true := Option.isSome_iff_exists.mpr ⟨r1, h1⟩
    have hc2 : odContains o2 (k, n) = true := Option.isSome_iff_exists.mpr ⟨r2, h2⟩
    unfold objHandler
    rw [hpk, if_neg (by simp [hc2]), if_neg (by simp [hc1]), h1, h2]
    unfold diff_obj
    rw [if_pos (by simp [hne])]
    simp

theorem diff_ns_no_add_delete (ns k n : Value) (o1 o2 : Bucket)
    (hc1 : odContains o1 (k, n) = true) (hc2 : odContains o2 (k, n) = true) :
    ∀ e ∈ diff_ns ns o1 o2,
      e ≠ Event.add_obj ns k n ∧ e ≠ Event.delete_obj ns k n := by
  unfold diff_ns
  apply dedupGo_forall
  intro p _ e he
  obtain ⟨i, pk, pn⟩ := p
  by_cases hpk : (pk, pn) = ((k, n) : Value × Value)
  · injection hpk with hk hn
    subst hk; subst hn
    unfold objHandler at he
    simp only [hc1, hc2] at he
    rw [if_neg (by simp), if_neg (by simp)] at he
    unfold diff_obj at he
    split_ifs at he with h3
    · simp only [List.mem_singleton] at he
      simp [he]
    · simp at he
  · have hkey : ¬(pk = k ∧ pn = n) := by
      intro hc
      exact hpk (by simp [hc.1, hc.2])
    unfold objHandler at he
    split_ifs at he with hb1 hb2
    · simp only [List.mem_singleton] at he
      subst he
      refine ⟨by simp, ?_⟩
      intro hc
      injection hc with hc1' hc2' hc3'
      exact hkey ⟨hc2', hc3'⟩
    · simp only [List.mem_singleton] at he
      subst he
      refine ⟨?_, by simp⟩
      intro hc
      injection hc with hc1' hc2' hc3'
      exact hkey ⟨hc2', hc3'⟩
    · unfold diff_obj at he
      split_ifs at he with h3
      · simp only [List.mem_singleton] at he
        simp [he]
      · simp at he

theorem diff_ns_countP_key_le_one (ns k n : Value) (o1 o2 : Bucket) :
    (diff_ns ns o1 o2).countP
      (fun e => decide (e = Event.delete_obj ns k n ∨ e = Event.add_obj ns k n ∨
        e = Event.change_obj ns k n)) ≤ 1 := by
  unfold diff_ns
  apply dedupGo_countP_le _ _ _ _ ((k, n) : Value × Value) 1
  · intro p _ hpne e he
    obtain ⟨i, pk, pn⟩ := p
    have hkey : ¬(pk = k ∧ pn = n) := by
      intro hc
      exact hpne (by simp [hc.1, hc.2])
    unfold objHandler at he
    split_ifs at he with hb1 hb2
    · simp only [List.mem_singleton] at he
      subst he
      simp only [decide_eq_false_iff_not]
      rintro (hc | hc | hc) <;>
        first
          | (injection hc with hc1' hc2' hc3'; exact hkey ⟨hc2', hc3'⟩)
          | exact Event.noConfusion hc
    · simp only [List.mem_singleton] at he
      subst he
      simp only [decide_eq_false_iff_not]
      rintro (hc | hc | hc) <;>
        first
          | (injection hc with hc1' hc2' hc3'; exact hkey ⟨hc2', hc3'⟩)
          | exact Event.noConfusion hc
    · unfold diff_obj at he
      split_ifs at he with h3
      · simp only [List.mem_singleton] at he
        subst he
        simp only [decide_eq_false_iff_not]
        rintro (hc | hc | hc) <;>
          first
            | (injection hc with hc1' hc2' hc3'; exact hkey ⟨hc2', hc3'⟩)
            | exact Event.noConfusion hc
      · simp at he
  · intro p _ _
    calc (objHandler ns o1 o2 p).countP _ ≤ (objHandler ns o1 o2 p).length :=
          List.countP_le_length _
      _ ≤ 1 := by
          obtain ⟨i, pk, pn⟩ := p
          unfold objHandler
          split_ifs <;> simp [diff_obj]
          split_ifs <;> simp

theorem calculate_changes_no_add_delete (items1 items2 : Hierarchy) (ns k n : Value)
    (b1 b2 : Bucket)
    (hb1 : odLookup items1 ns = some b1) (hb2 : odLookup items2 ns = some b2)
    (hck1 : odContains b1 (k, n) = true) (hck2 : odContains b2 (k, n) = true) :
    ∀ e ∈ calculate_changes items1 items2,
      e ≠ Event.add_obj ns k n ∧ e ≠ Event.delete_obj ns k n := by
  unfold calculate_changes
  apply dedupGo_forall
  intro p _ e he
  unfold nsHandler at he
  split_ifs at he with h1 h2
  · simp only [List.mem_singleton] at he
    subst he
    simp
  · simp only [List.mem_singleton] at he
    subst he
    simp
  · by_cases hpk : p.2 = ns
    · rw [hpk, hb1, hb2] at he
      simp only [Option.getD_some] at he
      exact diff_ns_no_add_delete ns k n b1 b2 hck1 hck2 e he
    · rcases diff_ns_event_shape _ _ _ e he with ⟨k', n', h | h | h⟩ <;> subst h
      · refine ⟨fun hc => Event.noConfusion hc, fun hc => ?_⟩
        injection hc with hns hk' hn'
        exact hpk hns
      · refine ⟨fun hc => ?_, fun hc => Event.noConfusion hc⟩
        injection hc with hns hk' hn'
        exact hpk hns
      · exact ⟨fun hc => Event.noConfusion hc, fun hc => Event.noConfusion hc⟩

/-- C3: when both hierarchies contain namespace `ns` and both stored
buckets contain the key `(k, n)` with records that are not deeply equal,
`calculate_changes` yields exactly one `ChangeRecord` event for that key
and never an `AddRecord` or `DeleteRecord` event for it. -/
theorem change_detection (items1 items2 : Hierarchy) (ns k n : Value)
    (b1 b2 : Bucket) (r1 r2 : Value)
    (hb1 : odLookup items1 ns = some b1) (hb2 : odLookup items2 ns = some b2)
    (hr1 : odLookup b1 (k, n) = some r1) (hr2 : odLookup b2 (k, n) = some r2)
    (hne : r1 ≠ r2) :
    (calculate_changes items1 items2).countP
        (fun e => decide (e = Event.change_obj ns k n)) = 1 ∧
    (calculate_changes items1 items2).countP
        (fun e => decide (e = Event.add_obj ns k n)) = 0 ∧
    (calculate_changes items1 items2).countP
        (fun e => decide (e = Event.delete_obj ns k n)) = 0 := by
  have hcns1 : odContains items1 ns = true := Option.isSome_iff_exists.mpr ⟨b1, hb1⟩
  have hcns2 : odContains items2 ns = true := Option.isSome_iff_exists.mpr ⟨b2, hb2⟩
  have hck1 : odContains b1 (k, n) = true := Option.isSome_iff_exists.mpr ⟨r1, hr1⟩
  have hck2 : odContains b2 (k, n) = true := Option.isSome_iff_exists.mpr ⟨r2, hr2⟩
  refine ⟨?_, ?_, ?_⟩
  · unfold calculate_changes
    apply dedupGo_countP_eq _ _ _ _ ns 1
    · simp
    · exact List.mem_map.mpr
        ⟨(0, ns), interleave_two_mem_left _ (odLookup_mem_keys hb1), rfl⟩
    · intro p _ hpne e he
      unfold nsHandler at he
      split_ifs at he with h1 h2
      · simp only [List.mem_singleton] at he
        subst he
        simp
      · simp only [List.mem_singleton] at he
        subst he
        simp
      · rcases diff_ns_event_shape _ _ _ e he with ⟨k', n', h | h | h⟩ <;> subst h
        · simp
        · simp
        · simp only [decide_eq_false_iff_not]
          intro hc
          injection hc with hns hk' hn'
          exact hpne hns
    · intro p _ hpk
      unfold nsHandler
      rw [hpk, if_neg (by simp [hcns2]), if_neg (by simp [hcns1]), hb1, hb2]
      simp only [Option.getD_some]
      exact diff_ns_countP_change ns k n b1 b2 r1 r2 hr1 hr2 hne
  · rw [List.countP_eq_zero]
    intro e he
    have := (calculate_changes_no_add_delete items1 items2 ns k n b1 b2
      hb1 hb2 hck1 hck2 e he).1
    simpa using this
  · rw [List.countP_eq_zero]
    intro e he
    have := (calculate_changes_no_add_delete items1 items2 ns k n b1 b2
      hb1 hb2 hck1 hck2 e he).2
    simpa using this

/-- C3 witness: the change-detection theorem applied to two concrete
one-namespace hierarchies that share the key (ConfigMap, x) with two
different record bodies. -/
theorem change_detection_witness :
    odLookup ([(Value.str "a",
        [((Value.str "ConfigMap", Value.str "x"), Value.int 1)])] : Hierarchy)
        (Value.str "a")
      = some [((Value.str "ConfigMap", Value.str "x"), Value.int 1)] ∧
    odLookup ([(Value.str "a",
        [((Value.str "ConfigMap", Value.str "x"), Value.int 2)])] : Hierarchy)
        (Value.str "a")
      = some [((Value.str "ConfigMap", Value.str "x"), Value.int 2)] ∧
    Value.int 1 ≠ Value.int 2 ∧
    ((calculate_changes
        [(Value.str "a", [((Value.str "ConfigMap", Value.str "x"), Value.int 1)])]
        [(Value.str "a", [((Value.str "ConfigMap", Value.str "x"), Value.int 2)])]).countP
        (fun e => decide (e = Event.change_obj (.str "a") (.str "ConfigMap") (.str "x"))) = 1 ∧
      (calculate_changes
        [(Value.str "a", [((Value.str "ConfigMap", Value.str "x"), Value.int 1)])]
        [(Value.str "a", [((Value.str "ConfigMap", Value.str "x"), Value.int 2)])]).countP
        (fun e => decide (e = Event.add_obj (.str "a") (.str "ConfigMap") (.str "x"))) = 0 ∧
      (calculate_changes
        [(Value.str "a", [((Value.str "ConfigMap", Value.str "x"), Value.int 1)])]
        [(Value.str "a", [((Value.str "ConfigMap", Value.str "x"), Value.int 2)])]).countP
        (fun e => decide (e = Event.delete_obj (.str "a") (.str "ConfigMap") (.str "x"))) = 0) :=
  ⟨by decide, by decide, by decide,
    change_detection
      [(Value.str "a", [((Value.str "ConfigMap", Value.str "x"), Value.int 1)])]
      [(Value.str "a", [((Value.str "ConfigMap", Value.str "x"), Value.int 2)])]
      (.str "a") (.str "ConfigMap") (.str "x")
      [((Value.str "ConfigMap", Value.str "x"), Value.int 1)]
      [((Value.str "ConfigMap", Value.str "x"), Value.int 2)]
      (Value.int 1) (Value.int 2)
      (by decide) (by decide) (by decide) (by decide) (by decide)⟩

/-- C10: the diff emits at most one namespace-level event per namespace
identifier (so never both an add and a delete), and at most one
record-level event per (namespace, kind, name) triple. -/
theorem at_most_one_event_per_identifier (items1 items2 : Hierarchy) (ns k n : Value) :
    (calculate_changes items1 items2).countP
        (fun e => decide (e = Event.add_ns ns ∨ e = Event.delete_ns ns)) ≤ 1 ∧
    (calculate_changes items1 items2).countP
        (fun e => decide (e = Event.delete_obj ns k n ∨ e = Event.add_obj ns k n ∨
          e = Event.change_obj ns k n)) ≤ 1 := by
  constructor
  · unfold calculate_changes
    apply dedupGo_countP_le _ _ _ _ ns 1
    · intro p _ hpne e he
      unfold nsHandler at he
      split_ifs at he with h1 h2
      · simp only [List.mem_singleton] at he
        subst he
        simp only [decide_eq_false_iff_not]
        rintro (hc | hc)
        · exact Event.noConfusion hc
        · injection hc with hns
          exact hpne hns
      · simp only [List.mem_singleton] at he
        subst he
        simp only [decide_eq_false_iff_not]
        rintro (hc | hc)
        · injection hc with hns
          exact hpne hns
        · exact Event.noConfusion hc
      · rcases diff_ns_event_shape _ _ _ e he with ⟨k', n', h | h | h⟩ <;> subst h <;> simp
    · intro p _ _
      unfold nsHandler
      split_ifs with h1 h2
      · exact le_trans (List.countP_le_length _) (by simp)
      · exact le_trans (List.countP_le_length _) (by simp)
      · have hz : (diff_ns p.2 ((odLookup items1 p.2).getD [])
            ((odLookup items2 p.2).getD [])).countP
            (fun e => decide (e = Event.add_ns ns ∨ e = Event.delete_ns ns)) = 0 := by
          rw [List.countP_eq_zero]
          intro e he
          rcases diff_ns_event_shape _ _ _ e he with ⟨k', n', h | h | h⟩ <;> subst h <;> simp
        rw [hz]
        exact Nat.zero_le 1
  · unfold calculate_changes
    apply dedupGo_countP_le _ _ _ _ ns 1
    · intro p _ hpne e he
      unfold nsHandler at he
      split_ifs at he with h1 h2
      · simp only [List.mem_singleton] at he
        subst he
        simp
      · simp only [List.mem_singleton] at he
        subst he
        simp
      · rcases diff_ns_event_shape _ _ _ e he with ⟨k', n', h | h | h⟩ <;> subst h <;>
          · simp only [decide_eq_false_iff_not]
            rintro (hc | hc | hc) <;>
              first
                | (injection hc with hns hk' hn'; exact hpne hns)
                | exact Event.noConfusion hc
    · intro p _ hpk
      unfold nsHandler
      split_ifs with h1 h2
      · exact le_trans (List.countP_le_length _) (by simp)
      · exact le_trans (List.countP_le_length _) (by simp)
      · rw [hpk]
        exact diff_ns_countP_key_le_one ns k n _ _

/-! ### Further ordered-mapping lemmas -/

theorem odLookup_some_imp_mem {κ ν : Type} [DecidableEq κ] {l : List (κ × ν)} {k : κ} {v : ν}
    (h : odLookup l k = some v) : (k, v) ∈ l := by
  induction l with
  | nil => simp [odLookup] at h
  | cons p rest ih =>
    by_cases hk : p.1 = k
    · rw [show p = (p.1, p.2) from rfl] at h ⊢
      simp only [odLookup, if_pos hk] at h
      cases h
      simp [hk]
    · rw [show p = (p.1, p.2) from rfl] at h ⊢
      simp only [odLookup, if_neg hk] at h
      exact List.mem_cons_of_mem _ (ih h)

theorem odContains_append_left {κ ν : Type} [DecidableEq κ] {l₁ : List (κ × ν)}
    (l₂ : List (κ × ν)) {k : κ} (h : odContains l₁ k = true) :
    odContains (l₁ ++ l₂) k = true := by
  rcases Option.isSome_iff_exists.mp h with ⟨v, hv⟩
  unfold odContains
  rw [odLookup_append, hv]
  rfl

theorem odContains_append_self {κ ν : Type} [DecidableEq κ] (l : List (κ × ν)) (k : κ)
    (v : ν) : odContains (l ++ [(k, v)]) k = true := by
  unfold odContains
  rw [odLookup_append]
  cases h : odLookup l k with
  | some w => rfl
  | none => simp [odLookup]

theorem odContains_odInsert_mono {κ ν : Type} [DecidableEq κ] {l : List (κ × ν)} {x : κ}
    (k : κ) (v : ν) (h : odContains l x = true) : odContains (odInsert l k v) x = true := by
  by_cases hk : k = x
  · subst hk
    unfold odContains
    rw [odLookup_odInsert_self]
    rfl
  · unfold odContains
    rw [odLookup_odInsert_ne _ _ _ _ hk]
    exact h

theorem odContains_odInsert_self {κ ν : Type} [DecidableEq κ] (l : List (κ × ν)) (k : κ)
    (v : ν) : odContains (odInsert l k v) k = true := by
  unfold odContains
  rw [odLookup_odInsert_self]
  rfl

/-! ### Flattening a hierarchy back to its stored records -/


theorem mem_flattenH_of_mem {h : Hierarchy} {ns : Value} {b : Bucket} {r : Value}
    (hb : (ns, b) ∈ h) (hr : r ∈ b.map Prod.snd) : r ∈ flattenH h := by
  unfold flattenH
  rw [List.mem_flatMap]
  exact ⟨(ns, b), hb, hr⟩

theorem mem_flattenH_odInsert {h : Hierarchy} {x : Value} {b' : Bucket} {r : Value}
    (hr : r ∈ flattenH (odInsert h x b')) : r ∈ flattenH h ∨ r ∈ b'.map Prod.snd := by
  induction h with
  | nil =>
    simp only [odInsert, flattenH, List.flatMap_cons, List.flatMap_nil,
      List.append_nil] at hr
    exact Or.inr hr
  | cons p rest ih =>
    by_cases hk : p.1 = x
    · rw [show p = (p.1, p.2) from rfl] at hr ⊢
      simp only [odInsert, if_pos hk] at hr
      simp only [flattenH, List.flatMap_cons, List.mem_append] at hr ⊢
      rcases hr with hr | hr
      · exact Or.inr hr
      · exact Or.inl (Or.inr hr)
    · rw [show p = (p.1, p.2) from rfl] at hr ⊢
      simp only [odInsert, if_neg hk] at hr
      simp only [flattenH, List.flatMap_cons, List.mem_append] at hr ⊢
      rcases hr with hr | hr
      · exact Or.inl (Or.inl hr)
      · rcases ih hr with h' | h'
        · exact Or.inl (Or.inr h')
        · exact Or.inr h'

theorem mem_map_snd_odInsert {b : Bucket} {key : Value × Value} {v r : Value}
    (hr : r ∈ (odInsert b key v).map Prod.snd) : r ∈ b.map Prod.snd ∨ r = v := by
  induction b with
  | nil =>
    simp only [odInsert, List.map_cons, List.map_nil, List.mem_singleton] at hr
    exact Or.inr hr
  | cons p rest ih =>
    by_cases hk : p.1 = key
    · rw [show p = (p.1, p.2) from rfl] at hr ⊢
      simp only [odInsert, if_pos hk, List.map_cons, List.mem_cons] at hr ⊢
      rcases hr with hr | hr
      · exact Or.inr hr
      · exact Or.inl (Or.inr hr)
    · rw [show p = (p.1, p.2) from rfl] at hr ⊢
      simp only [odInsert, if_neg hk, List.map_cons, List.mem_cons] at hr ⊢
      rcases hr with hr | hr
      · exact Or.inl (Or.inl hr)
      · rcases ih hr with h' | h'
        · exact Or.inl (Or.inr h')
        · exact Or.inr h'

theorem flattenH_append_empty (h : Hierarchy) (x : Value) :
    flattenH (h ++ [(x, [])]) = flattenH h := by
  unfold flattenH
  rw [List.flatMap_append]
  simp

/-! ### The identity fields the engine reads from a record -/

theorem identOf_fields {r : Value} {k n ns : Value} (h : identOf r = some (k, n, ns)) :
    dictGet r "kind" = some k ∧ metaGet r "name" = n ∧ metaGet r "namespace" = ns := by
  cases r with
  | obj fields =>
    simp only [identOf] at h
    cases hk : fields.lookup "kind" with
    | none => rw [hk] at h; simp at h
    | some kv =>
      rw [hk] at h
      cases hmd : fields.lookup "metadata" with
      | none => rw [hmd] at h; simp at h
      | some mv =>
        rw [hmd] at h
        cases mv with
        | obj md =>
          simp only [Option.some.injEq, Prod.mk.injEq] at h
          obtain ⟨h1, h2, h3⟩ := h
          refine ⟨?_, ?_, ?_⟩
          · simpa [dictGet, hk] using h1
          · simp [metaGet, hmd, h2]
          · simp [metaGet, hmd, h3]
        | null => simp at h
        | bool b => simp at h
        | int n' => simp at h
        | str s => simp at h
        | arr a => simp at h
  | null => simp [identOf] at h
  | bool b => simp [identOf] at h
  | int n' => simp [identOf] at h
  | str s => simp [identOf] at h
  | arr a => simp [identOf] at h

/-! ### Characterizing one successful builder step -/

theorem gather_step_ok_cases {acc acc' : Hierarchy} {obj : Value}
    (h : gather_step acc obj = .ok acc') :
    (∃ fields, obj = .obj fields ∧ (fields.lookup "kind").isNone = true ∧ acc' = acc) ∨
    (∃ fields k n ns N1 N2, obj = .obj fields ∧ identOf obj = some (k, n, ns) ∧
      N1 = (if odContains acc ns then acc else acc ++ [(ns, [])]) ∧
      N2 = (if k = Value.str "Namespace" ∧ ¬ odContains N1 n = true
            then N1 ++ [(n, [])] else N1) ∧
      acc' = odInsert N2 ns (odInsert ((odLookup N2 ns).getD []) (k, n) obj)) := by
  cases obj with
  | obj fields =>
    simp only [gather_step] at h
    by_cases hkind : (fields.lookup "kind").isNone = true
    · rw [if_pos hkind] at h
      simp only [Except.ok.injEq] at h
      exact Or.inl ⟨fields, rfl, hkind, h.symm⟩
    · rw [if_neg hkind] at h
      cases hmd : fields.lookup "metadata" with
      | none => rw [hmd] at h; simp at h
      | some v =>
        rw [hmd] at h
        cases v with
        | obj md =>
          have hk : fields.lookup "kind" = some ((fields.lookup "kind").getD .null) := by
            cases hkk : fields.lookup "kind" with
            | none => rw [hkk] at hkind; simp at hkind
            | some kv => simp
          refine Or.inr ⟨fields, (fields.lookup "kind").getD .null,
            (md.lookup "name").getD .null, (md.lookup "namespace").getD .null,
            _, _, rfl, ?_, rfl, rfl, ?_⟩
          · simp only [identOf]
            rw [hk, hmd]
            simp
          · simp only [Except.ok.injEq] at h
            exact h.symm
        | null => simp at h
        | bool b => simp at h
        | int n' => simp at h
        | str s => simp at h
        | arr a => simp at h
  | null => simp [gather_step] at h
  | bool b => simp [gather_step] at h
  | int n' => simp [gather_step] at h
  | str s => simp [gather_step] at h
  | arr a => simp [gather_step] at h

/-! ### The stored-at-own-identity invariant -/


theorem storedOk_nil : StoredOk [] := by
  intro ns b hb
  simp [odLookup] at hb

theorem storedOk_append_empty {acc : Hierarchy} (h : StoredOk acc) (x : Value) :
    StoredOk (acc ++ [(x, [])]) := by
  intro ns b hb k n r hr
  rw [odLookup_append] at hb
  cases hacc : odLookup acc ns with
  | some b' =>
    rw [hacc] at hb
    simp only [Option.some.injEq] at hb
    subst hb
    exact h ns b' hacc k n r hr
  | none =>
    rw [hacc] at hb
    simp only [odLookup] at hb
    split_ifs at hb with hx
    simp only [Option.some.injEq] at hb
    subst hb
    simp [odLookup] at hr

theorem gather_step_storedOk {acc acc' : Hierarchy} {obj : Value}
    (hstep : gather_step acc obj = .ok acc') (h : StoredOk acc) : StoredOk acc' := by
  rcases gather_step_ok_cases hstep with ⟨fields, _, _, rfl⟩ |
    ⟨fields, k, n, ns, N1, N2, hobj, hid, hN1, hN2, hacc'⟩
  · exact h
  · have h1 : StoredOk N1 := by
      rw [hN1]
      split_ifs with hc
      · exact h
      · exact storedOk_append_empty h ns
    have h2 : StoredOk N2 := by
      rw [hN2]
      split_ifs with hc
      · exact storedOk_append_empty h1 n
      · exact h1
    rw [hacc']
    intro ns' b' hb' k' n' r' hr'
    by_cases hns : ns = ns'
    · subst hns
      rw [odLookup_odInsert_self] at hb'
      simp only [Option.some.injEq] at hb'
      subst hb'
      by_cases hkey : ((k, n) : Value × Value) = (k', n')
      · rw [← hkey, odLookup_odInsert_self] at hr'
        simp only [Option.some.injEq] at hr'
        subst hr'
        injection hkey with hkk hnn
        subst hkk; subst hnn
        exact hid
      · rw [odLookup_odInsert_ne _ _ _ _ hkey] at hr'
        cases hN2l : odLookup N2 ns with
        | some b0 =>
          rw [hN2l] at hr'
          simp only [Option.getD_some] at hr'
          exact h2 ns b0 hN2l k' n' r' hr'
        | none =>
          rw [hN2l] at hr'
          simp [odLookup] at hr'
    · rw [odLookup_odInsert_ne _ _ _ _ hns] at hb'
      exact h2 ns' b' hb' k' n' r' hr'

theorem gather_aux_storedOk : ∀ (items : List Value) (acc h : Hierarchy),
    gather_objects_aux acc items = .ok h → StoredOk acc → StoredOk h := by
  intro items
  induction items with
  | nil =>
    intro acc h hok hs
    simp only [gather_objects_aux, Except.ok.injEq] at hok
    subst hok
    exact hs
  | cons obj rest ih =>
    intro acc h hok hs
    simp only [gather_objects_aux] at hok
    cases hstep : gather_step acc obj with
    | ok acc' =>
      rw [hstep] at hok
      exact ih acc' h hok (gather_step_storedOk hstep hs)
    | error e =>
      rw [hstep] at hok
      simp at hok

/-- C9: in every hierarchy returned by `gather_objects`, a record stored in
the bucket for namespace `ns` under key `(k, n)` satisfies
`record["kind"] == k`, `record["metadata"].get("name") == n` and
`record["metadata"].get("namespace") == ns` — each record lies exactly
where its own identity fields place it. -/
theorem record_location_matches_identity (items : List Value) (h : Hierarchy)
    (ns k n r : Value) (b : Bucket)
    (hok : gather_objects items = .ok h)
    (hb : odLookup h ns = some b) (hr : odLookup b (k, n) = some r) :
    dictGet r "kind" = some k ∧ metaGet r "name" = n ∧ metaGet r "namespace" = ns := by
  have hs : StoredOk h := gather_aux_storedOk items [] h hok storedOk_nil
  exact identOf_fields (hs ns b hb k n r hr)

/-- C9 witness: the location-identity theorem applied to the hierarchy
built from one concrete Pod record. -/
theorem record_location_matches_identity_witness :
    gather_objects
        [Value.obj (.cons "kind" (.str "Pod")
          (.cons "metadata" (.obj (.cons "namespace" (.str "ns1")
            (.cons "name" (.str "p") .nil))) .nil))]
      = .ok [(Value.str "ns1",
          [((Value.str "Pod", Value.str "p"),
            Value.obj (.cons "kind" (.str "Pod")
              (.cons "metadata" (.obj (.cons "namespace" (.str "ns1")
                (.cons "name" (.str "p") .nil))) .nil)))])] ∧
    (dictGet (Value.obj (.cons "kind" (.str "Pod")
          (.cons "metadata" (.obj (.cons "namespace" (.str "ns1")
            (.cons "name" (.str "p") .nil))) .nil))) "kind" = some (.str "Pod") ∧
      metaGet (Value.obj (.cons "kind" (.str "Pod")
          (.cons "metadata" (.obj (.cons "namespace" (.str "ns1")
            (.cons "name" (.str "p") .nil))) .nil))) "name" = .str "p" ∧
      metaGet (Value.obj (.cons "kind" (.str "Pod")
          (.cons "metadata" (.obj (.cons "namespace" (.str "ns1")
            (.cons "name" (.str "p") .nil))) .nil))) "namespace" = .str "ns1") :=
  ⟨rfl,
    record_location_matches_identity
      [Value.obj (.cons "kind" (.str "Pod")
        (.cons "metadata" (.obj (.cons "namespace" (.str "ns1")
          (.cons "name" (.str "p") .nil))) .nil))]
      [(Value.str "ns1",
        [((Value.str "Pod", Value.str "p"),
          Value.obj (.cons "kind" (.str "Pod")
            (.cons "metadata" (.obj (.cons "namespace" (.str "ns1")
              (.cons "name" (.str "p") .nil))) .nil)))])]
      (.str "ns1") (.str "Pod") (.str "p")
      (Value.obj (.cons "kind" (.str "Pod")
        (.cons "metadata" (.obj (.cons "namespace" (.str "ns1")
          (.cons "name" (.str "p") .nil))) .nil)))
      [((Value.str "Pod", Value.str "p"),
        Value.obj (.cons "kind" (.str "Pod")
          (.cons "metadata" (.obj (.cons "namespace" (.str "ns1")
            (.cons "name" (.str "p") .nil))) .nil)))]
      rfl rfl rfl⟩

/-! ### Presence and monotonicity of buckets across builder steps -/

theorem identOf_obj_inv {fields : FList} {k n ns : Value}
    (h : identOf (.obj fields) = some (k, n, ns)) :
    fields.lookup "kind" = some k ∧
    ∃ md, fields.lookup "metadata" = some (.obj md) ∧
      (md.lookup "name").getD .null = n ∧ (md.lookup "namespace").getD .null = ns := by
  simp only [identOf] at h
  cases hk : fields.lookup "kind" with
  | none => rw [hk] at h; simp at h
  | some kv =>
    rw [hk] at h
    cases hmd : fields.lookup "metadata" with
    | none => rw [hmd] at h; simp at h
    | some mv =>
      rw [hmd] at h
      cases mv with
      | obj md =>
        simp only [Option.some.injEq, Prod.mk.injEq] at h
        obtain ⟨h1, h2, h3⟩ := h
        exact ⟨congrArg some h1, md, rfl, h2, h3⟩
      | null => simp at h
      | bool b => simp at h
      | int n' => simp at h
      | str s => simp at h
      | arr a => simp at h

theorem gather_step_mono {acc acc' : Hierarchy} {obj : Value}
    (hstep : gather_step acc obj = .ok acc') {ns : Value} {b : Bucket}
    {key : Value × Value}
    (hb : odLookup acc ns = some b) (hkb : odContains b key = true) :
    ∃ b', odLookup acc' ns = some b' ∧ odContains b' key = true := by
  rcases gather_step_ok_cases hstep with ⟨_, _, _, rfl⟩ |
    ⟨fields, k, n, ns₀, N1, N2, hobj, hid, hN1, hN2, hacc'⟩
  · exact ⟨b, hb, hkb⟩
  · have hb1 : odLookup N1 ns = some b := by
      rw [hN1]
      split_ifs
      · exact hb
      · rw [odLookup_append, hb]
    have hb2 : odLookup N2 ns = some b := by
      rw [hN2]
      split_ifs
      · rw [odLookup_append, hb1]
      · exact hb1
    rw [hacc']
    by_cases hns : ns₀ = ns
    · subst hns
      refine ⟨_, odLookup_odInsert_self _ _ _, ?_⟩
      rw [hb2]
      simp only [Option.getD_some]
      exact odContains_odInsert_mono _ _ hkb
    · rw [odLookup_odInsert_ne _ _ _ _ hns]
      exact ⟨b, hb2, hkb⟩

theorem gather_step_contains_mono {acc acc' : Hierarchy} {obj : Value}
    (hstep : gather_step acc obj = .ok acc') {x : Value}
    (hx : odContains acc x = true) : odContains acc' x = true := by
  rcases gather_step_ok_cases hstep with ⟨_, _, _, rfl⟩ |
    ⟨fields, k, n, ns₀, N1, N2, hobj, hid, hN1, hN2, hacc'⟩
  · exact hx
  · have h1 : odContains N1 x = true := by
      rw [hN1]
      split_ifs
      · exact hx
      · exact odContains_append_left _ hx
    have h2 : odContains N2 x = true := by
      rw [hN2]
      split_ifs
      · exact odContains_append_left _ h1
      · exact h1
    rw [hacc']
    exact odContains_odInsert_mono _ _ h2

theorem gather_step_establishes {acc acc' : Hierarchy} {obj : Value} {k n ns : Value}
    (hstep : gather_step acc obj = .ok acc') (hid : identOf obj = some (k, n, ns)) :
    (∃ b', odLookup acc' ns = some b' ∧ odContains b' (k, n) = true) ∧
    (k = Value.str "Namespace" → odContains acc' n = true) := by
  rcases gather_step_ok_cases hstep with ⟨fields, hobj, hkind, _⟩ |
    ⟨fields, k', n', ns', N1, N2, hobj, hid', hN1, hN2, hacc'⟩
  · subst hobj
    rcases identOf_obj_inv hid with ⟨hk, _⟩
    rw [hk] at hkind
    simp at hkind
  · rw [hid'] at hid
    simp only [Option.some.injEq, Prod.mk.injEq] at hid
    obtain ⟨rfl, rfl, rfl⟩ := hid
    constructor
    · rw [hacc']
      exact ⟨_, odLookup_odInsert_self _ _ _, odContains_odInsert_self _ _ _⟩
    · intro hkNS
      have h2 : odContains N2 n' = true := by
        rw [hN2]
        split_ifs with hc
        · exact odContains_append_self _ _ _
        · rw [not_and_or] at hc
          rcases hc with hc | hc
          · exact absurd hkNS hc
          · simpa using hc
      rw [hacc']
      exact odContains_odInsert_mono _ _ h2

theorem gather_aux_mono : ∀ (items : List Value) (acc h : Hierarchy),
    gather_objects_aux acc items = .ok h → ∀ {ns : Value} {b : Bucket}
    {key : Value × Value}, odLookup acc ns = some b → odContains b key = true →
    ∃ b', odLookup h ns = some b' ∧ odContains b' key = true := by
  intro items
  induction items with
  | nil =>
    intro acc h hok ns b key hb hkb
    simp only [gather_objects_aux, Except.ok.injEq] at hok
    subst hok
    exact ⟨b, hb, hkb⟩
  | cons obj rest ih =>
    intro acc h hok ns b key hb hkb
    simp only [gather_objects_aux] at hok
    cases hstep : gather_step acc obj with
    | ok acc' =>
      rw [hstep] at hok
      rcases gather_step_mono hstep hb hkb with ⟨b', hb', hkb'⟩
      exact ih acc' h hok hb' hkb'
    | error e =>
      rw [hstep] at hok
      simp at hok

theorem gather_aux_contains_mono : ∀ (items : List Value) (acc h : Hierarchy),
    gather_objects_aux acc items = .ok h → ∀ {x : Value},
    odContains acc x = true → odContains h x = true := by
  intro items
  induction items with
  | nil =>
    intro acc h hok x hx
    simp only [gather_objects_aux, Except.ok.injEq] at hok
    subst hok
    exact hx
  | cons obj rest ih =>
    intro acc h hok x hx
    simp only [gather_objects_aux] at hok
    cases hstep : gather_step acc obj with
    | ok acc' =>
      rw [hstep] at hok
      exact ih acc' h hok (gather_step_contains_mono hstep hx)
    | error e =>
      rw [hstep] at hok
      simp at hok

theorem gather_aux_presence : ∀ (items : List Value) (acc h : Hierarchy),
    gather_objects_aux acc items = .ok h → ∀ r ∈ items, ∀ k n ns,
    identOf r = some (k, n, ns) →
    (∃ b, odLookup h ns = some b ∧ odContains b (k, n) = true) ∧
    (k = Value.str "Namespace" → odContains h n = true) := by
  intro items
  induction items with
  | nil =>
    intro acc h hok r hr
    simp at hr
  | cons obj rest ih =>
    intro acc h hok r hr k n ns hid
    simp only [gather_objects_aux] at hok
    cases hstep : gather_step acc obj with
    | ok acc' =>
      rw [hstep] at hok
      rcases List.mem_cons.mp hr with rfl | hr
      · rcases gather_step_establishes hstep hid with ⟨⟨b', hb', hkb'⟩, hNS⟩
        refine ⟨gather_aux_mono rest acc' h hok hb' hkb', fun hk => ?_⟩
        exact gather_aux_contains_mono rest acc' h hok (hNS hk)
      · exact ih acc' h hok r hr k n ns hid
    | error e =>
      rw [hstep] at hok
      simp at hok

/-! ### Provenance: stored records come from the input sequence -/

theorem gather_step_flattenH {acc acc' : Hierarchy} {obj : Value}
    (hstep : gather_step acc obj = .ok acc') {r : Value}
    (hr : r ∈ flattenH acc') : r ∈ flattenH acc ∨ r = obj := by
  rcases gather_step_ok_cases hstep with ⟨_, _, _, rfl⟩ |
    ⟨fields, k, n, ns₀, N1, N2, hobj, hid, hN1, hN2, hacc'⟩
  · exact Or.inl hr
  · have hflat1 : flattenH N1 = flattenH acc := by
      rw [hN1]
      split_ifs
      · rfl
      · exact flattenH_append_empty _ _
    have hflat2 : flattenH N2 = flattenH acc := by
      rw [hN2]
      split_ifs
      · rw [flattenH_append_empty, hflat1]
      · exact hflat1
    rw [hacc'] at hr
    rcases mem_flattenH_odInsert hr with hr | hr
    · rw [hflat2] at hr
      exact Or.inl hr
    · rcases mem_map_snd_odInsert hr with hr | hr
      · cases hl : odLookup N2 ns₀ with
        | none => rw [hl] at hr; simp at hr
        | some b0 =>
          rw [hl] at hr
          simp only [Option.getD_some] at hr
          have : r ∈ flattenH N2 := mem_flattenH_of_mem (odLookup_some_imp_mem hl) hr
          rw [hflat2] at this
          exact Or.inl this
      · exact Or.inr hr

theorem gather_aux_provenance : ∀ (items : List Value) (acc h : Hierarchy),
    gather_objects_aux acc items = .ok h → ∀ r ∈ flattenH h,
    r ∈ flattenH acc ∨ r ∈ items := by
  intro items
  induction items with
  | nil =>
    intro acc h hok r hr
    simp only [gather_objects_aux, Except.ok.injEq] at hok
    subst hok
    exact Or.inl hr
  | cons obj rest ih =>
    intro acc h hok r hr
    simp only [gather_objects_aux] at hok
    cases hstep : gather_step acc obj with
    | ok acc' =>
      rw [hstep] at hok
      rcases ih acc' h hok r hr with hr' | hr'
      · rcases gather_step_flattenH hstep hr' with hr'' | hr''
        · exact Or.inl hr''
        · exact Or.inr (hr'' ▸ List.mem_cons_self _ _)
      · exact Or.inr (List.mem_cons_of_mem _ hr')
    | error e =>
      rw [hstep] at hok
      simp at hok

/-- C8: iterating the built hierarchy (namespaces then keys, in insertion
order) recovers exactly the set of (kind, name, namespace) identities of
the input records; records without the identity (no `kind` key) are the
only ones dropped, and duplicates at one key collapse, preserving the
identity set. -/
theorem gather_roundtrip (items : List Value) (h : Hierarchy)
    (hok : gather_objects items = .ok h) (t : Value × Value × Value) :
    (∃ r, r ∈ flattenH h ∧ identOf r = some t) ↔
      (∃ r, r ∈ items ∧ identOf r = some t) := by
  constructor
  · rintro ⟨r, hrmem, hrid⟩
    rcases gather_aux_provenance items [] h hok r hrmem with hr | hr
    · simp [flattenH] at hr
    · exact ⟨r, hr, hrid⟩
  · rintro ⟨r, hrmem, hrid⟩
    obtain ⟨k, n, ns⟩ := t
    rcases (gather_aux_presence items [] h hok r hrmem k n ns hrid).1
      with ⟨b, hb, hcb⟩
    rcases Option.isSome_iff_exists.mp hcb with ⟨r', hr'⟩
    have hid' : identOf r' = some (k, n, ns) :=
      gather_aux_storedOk items [] h hok storedOk_nil ns b hb k n r' hr'
    have hm : r' ∈ flattenH h :=
      mem_flattenH_of_mem (odLookup_some_imp_mem hb)
        (List.mem_map.mpr ⟨((k, n), r'), odLookup_some_imp_mem hr', rfl⟩)
    exact ⟨r', hm, hid'⟩

/-- C8 witness: the round-trip theorem applied to a two-record input with
one ConfigMap and one kindless record, at the ConfigMap's identity. -/
theorem gather_roundtrip_witness :
    gather_objects
        [Value.obj (.cons "kind" (.str "ConfigMap")
          (.cons "metadata" (.obj (.cons "namespace" (.str "a")
            (.cons "name" (.str "x") .nil))) .nil)),
         Value.obj (.cons "data" (.int 3) .nil)]
      = .ok [(Value.str "a",
          [((Value.str "ConfigMap", Value.str "x"),
            Value.obj (.cons "kind" (.str "ConfigMap")
              (.cons "metadata" (.obj (.cons "namespace" (.str "a")
                (.cons "name" (.str "x") .nil))) .nil)))])] ∧
    ((∃ r, r ∈ flattenH [(Value.str "a",
          [((Value.str "ConfigMap", Value.str "x"),
            Value.obj (.cons "kind" (.str "ConfigMap")
              (.cons "metadata" (.obj (.cons "namespace" (.str "a")
                (.cons "name" (.str "x") .nil))) .nil)))])] ∧
        identOf r = some (Value.str "ConfigMap", Value.str "x", Value.str "a")) ↔
      (∃ r, r ∈ [Value.obj (.cons "kind" (.str "ConfigMap")
          (.cons "metadata" (.obj (.cons "namespace" (.str "a")
            (.cons "name" (.str "x") .nil))) .nil)),
         Value.obj (.cons "data" (.int 3) .nil)] ∧
        identOf r = some (Value.str "ConfigMap", Value.str "x", Value.str "a"))) :=
  ⟨rfl,
    gather_roundtrip
      [Value.obj (.cons "kind" (.str "ConfigMap")
        (.cons "metadata" (.obj (.cons "namespace" (.str "a")
          (.cons "name" (.str "x") .nil))) .nil)),
       Value.obj (.cons "data" (.int 3) .nil)]
      [(Value.str "a",
        [((Value.str "ConfigMap", Value.str "x"),
          Value.obj (.cons "kind" (.str "ConfigMap")
            (.cons "metadata" (.obj (.cons "namespace" (.str "a")
              (.cons "name" (.str "x") .nil))) .nil)))])]
      rfl (Value.str "ConfigMap", Value.str "x", Value.str "a")⟩

/-! ### Bucket keys appear in first-seen discovery order -/

theorem discoverOne_skip {fields : FList} (hkind : (fields.lookup "kind").isNone = true) :
    discoverOne (.obj fields) = [] := by
  simp only [discoverOne]
  rw [if_pos hkind]

theorem discoverOne_eq {fields : FList} {k n ns : Value}
    (hid : identOf (.obj fields) = some (k, n, ns)) :
    discoverOne (.obj fields) = ns :: (if k = Value.str "Namespace" then [n] else []) := by
  rcases identOf_obj_inv hid with ⟨hk, md, hmd, hname, hns⟩
  simp only [discoverOne]
  rw [hk, hmd]
  simp only [Option.isNone_some, Bool.false_eq_true, if_false, Option.getD_some]
  rw [hname, hns]

theorem gather_step_keys {acc acc' : Hierarchy} {obj : Value}
    (hstep : gather_step acc obj = .ok acc') :
    odKeys acc' = odKeys acc ++ dedupF (odKeys acc) (discoverOne obj) := by
  rcases gather_step_ok_cases hstep with ⟨fields, rfl, hkind, rfl⟩ |
    ⟨fields, k, n, ns, N1, N2, hobj, hid, hN1, hN2, hacc'⟩
  · rw [discoverOne_skip hkind]
    simp [dedupF]
  · subst hobj
    rw [discoverOne_eq hid]
    have hcN1 : odContains N1 ns = true := by
      rw [hN1]
      split_ifs with hc
      · exact hc
      · exact odContains_append_self _ _ _
    have hcN2 : odContains N2 ns = true := by
      rw [hN2]
      split_ifs with hc
      · exact odContains_append_left _ hcN1
      · exact hcN1
    have hkeq : odKeys acc' = odKeys N2 := by
      rw [hacc']
      exact odKeys_odInsert_of_contains _ _ _ hcN2
    rw [hkeq]
    have hkN1 : odKeys N1 = odKeys acc ++ (if ns ∈ odKeys acc then [] else [ns]) := by
      rw [hN1]
      by_cases hm : ns ∈ odKeys acc
      · rw [if_pos (odContains_of_mem_keys hm), if_pos hm]
        simp
      · have hnc : ¬ odContains acc ns = true := fun hc => hm (odContains_mem_keys hc)
        rw [if_neg hnc, if_neg hm]
        simp [odKeys]
    by_cases hNS : k = Value.str "Namespace"
    · subst hNS
      have hkN2 : odKeys N2 = odKeys N1 ++ (if n ∈ odKeys N1 then [] else [n]) := by
        rw [hN2]
        by_cases hm : n ∈ odKeys N1
        · rw [if_neg ?hc, if_pos hm]
          · simp
          case hc =>
            rintro ⟨_, h2⟩
            exact h2 (odContains_of_mem_keys hm)
        · rw [if_pos ⟨rfl, fun hc => hm (odContains_mem_keys hc)⟩, if_neg hm]
          simp [odKeys]
      rw [hkN2, hkN1]
      by_cases hm : ns ∈ odKeys acc <;> simp [dedupF, hm]
    · have hN2N1 : N2 = N1 := by
        rw [hN2, if_neg]
        rintro ⟨h1, _⟩
        exact hNS h1
      rw [hN2N1, hkN1, if_neg hNS]
      by_cases hm : ns ∈ odKeys acc <;> simp [dedupF, hm]

theorem dedupF_append (seen xs ys : List Value) :
    dedupF seen (xs ++ ys) = dedupF seen xs ++ dedupF (seen ++ dedupF seen xs) ys := by
  induction xs generalizing seen with
  | nil => simp [dedupF]
  | cons x xs ih =>
    by_cases hx : x ∈ seen
    · simp only [List.cons_append, dedupF, if_pos hx]
      exact ih seen
    · simp only [List.cons_append, dedupF, if_neg hx, List.append_eq]
      rw [ih (seen ++ [x])]
      simp only [List.cons_append, List.nil_append, List.append_assoc,
        List.singleton_append]

theorem gather_aux_keys : ∀ (items : List Value) (acc h : Hierarchy),
    gather_objects_aux acc items = .ok h →
    odKeys h = odKeys acc ++ dedupF (odKeys acc) (discover items) := by
  intro items
  induction items with
  | nil =>
    intro acc h hok
    simp only [gather_objects_aux, Except.ok.injEq] at hok
    subst hok
    simp [discover, dedupF]
  | cons obj rest ih =>
    intro acc h hok
    simp only [gather_objects_aux] at hok
    cases hstep : gather_step acc obj with
    | ok acc' =>
      rw [hstep] at hok
      rw [ih acc' h hok, gather_step_keys hstep,
        show discover (obj :: rest) = discoverOne obj ++ discover rest from by
          simp [discover],
        dedupF_append, List.append_assoc]
    | error e =>
      rw [hstep] at hok
      simp at hok

/-- C7: the hierarchy has exactly the buckets discovered from the input
records in first-seen order — a bucket for every `metadata.namespace`
that occurs on a grouped record, plus a bucket under the `name` of every
record of kind `Namespace` — and each grouped record (in particular each
Namespace record) is itself stored in the bucket of its own
`metadata.namespace` under its `(kind, name)` key. -/
theorem gather_bucket_structure (items : List Value) (h : Hierarchy)
    (hok : gather_objects items = .ok h) :
    odKeys h = dedupF [] (discover items) ∧
    ∀ r ∈ items, ∀ k n ns, identOf r = some (k, n, ns) →
      odContains h ns = true ∧
      (k = Value.str "Namespace" → odContains h n = true) ∧
      ∃ b, odLookup h ns = some b ∧ odContains b (k, n) = true := by
  constructor
  · have := gather_aux_keys items [] h hok
    simpa [odKeys] using this
  · intro r hr k n ns hid
    rcases gather_aux_presence items [] h hok r hr k n ns hid with ⟨⟨b, hb, hcb⟩, hNS⟩
    refine ⟨?_, hNS, b, hb, hcb⟩
    unfold odContains
    rw [hb]
    rfl

/-- C7 witness: the bucket-structure theorem applied to a concrete input
holding one Pod in namespace ns1 and one cluster-scoped Namespace record
named ns2. -/
theorem gather_bucket_structure_witness :
    gather_objects
        [Value.obj (.cons "kind" (.str "Pod")
          (.cons "metadata" (.obj (.cons "namespace" (.str "ns1")
            (.cons "name" (.str "p") .nil))) .nil)),
         Value.obj (.cons "kind" (.str "Namespace")
          (.cons "metadata" (.obj (.cons "name" (.str "ns2") .nil)) .nil))]
      = .ok [(Value.str "ns1",
            [((Value.str "Pod", Value.str "p"),
              Value.obj (.cons "kind" (.str "Pod")
                (.cons "metadata" (.obj (.cons "namespace" (.str "ns1")
                  (.cons "name" (.str "p") .nil))) .nil)))]),
          (Value.null,
            [((Value.str "Namespace", Value.str "ns2"),
              Value.obj (.cons "kind" (.str "Namespace")
                (.cons "metadata" (.obj (.cons "name" (.str "ns2") .nil)) .nil)))]),
          (Value.str "ns2", [])] ∧
    (odKeys [(Value.str "ns1",
            [((Value.str "Pod", Value.str "p"),
              Value.obj (.cons "kind" (.str "Pod")
                (.cons "metadata" (.obj (.cons "namespace" (.str "ns1")
                  (.cons "name" (.str "p") .nil))) .nil)))]),
          (Value.null,
            [((Value.str "Namespace", Value.str "ns2"),
              Value.obj (.cons "kind" (.str "Namespace")
                (.cons "metadata" (.obj (.cons "name" (.str "ns2") .nil)) .nil)))]),
          (Value.str "ns2", [])]
        = dedupF [] (discover
            [Value.obj (.cons "kind" (.str "Pod")
              (.cons "metadata" (.obj (.cons "namespace" (.str "ns1")
                (.cons "name" (.str "p") .nil))) .nil)),
             Value.obj (.cons "kind" (.str "Namespace")
              (.cons "metadata" (.obj (.cons "name" (.str "ns2") .nil)) .nil))]) ∧
      ∀ r ∈ [Value.obj (.cons "kind" (.str "Pod")
              (.cons "metadata" (.obj (.cons "namespace" (.str "ns1")
                (.cons "name" (.str "p") .nil))) .nil)),
             Value.obj (.cons "kind" (.str "Namespace")
              (.cons "metadata" (.obj (.cons "name" (.str "ns2") .nil)) .nil))],
        ∀ k n ns, identOf r = some (k, n, ns) →
          odContains [(Value.str "ns1",
              [((Value.str "Pod", Value.str "p"),
                Value.obj (.cons "kind" (.str "Pod")
                  (.cons "metadata" (.obj (.cons "namespace" (.str "ns1")
                    (.cons "name" (.str "p") .nil))) .nil)))]),
            (Value.null,
              [((Value.str "Namespace", Value.str "ns2"),
                Value.obj (.cons "kind" (.str "Namespace")
                  (.cons "metadata" (.obj (.cons "name" (.str "ns2") .nil)) .nil)))]),
            (Value.str "ns2", [])] ns = true ∧
          (k = Value.str "Namespace" →
            odContains [(Value.str "ns1",
                [((Value.str "Pod", Value.str "p"),
                  Value.obj (.cons "kind" (.str "Pod")
                    (.cons "metadata" (.obj (.cons "namespace" (.str "ns1")
                      (.cons "name" (.str "p") .nil))) .nil)))]),
              (Value.null,
                [((Value.str "Namespace", Value.str "ns2"),
                  Value.obj (.cons "kind" (.str "Namespace")
                    (.cons "metadata" (.obj (.cons "name" (.str "ns2") .nil)) .nil)))]),
              (Value.str "ns2", [])] n = true) ∧
          ∃ b, odLookup [(Value.str "ns1",
                [((Value.str "Pod", Value.str "p"),
                  Value.obj (.cons "kind" (.str "Pod")
                    (.cons "metadata" (.obj (.cons "namespace" (.str "ns1")
                      (.cons "name" (.str "p") .nil))) .nil)))]),
              (Value.null,
                [((Value.str "Namespace", Value.str "ns2"),
                  Value.obj (.cons "kind" (.str "Namespace")
                    (.cons "metadata" (.obj (.cons "name" (.str "ns2") .nil)) .nil)))]),
              (Value.str "ns2", [])] ns = some b ∧
            odContains b (k, n) = true) :=
  ⟨rfl,
    gather_bucket_structure
      [Value.obj (.cons "kind" (.str "Pod")
        (.cons "metadata" (.obj (.cons "namespace" (.str "ns1")
          (.cons "name" (.str "p") .nil))) .nil)),
       Value.obj (.cons "kind" (.str "Namespace")
        (.cons "metadata" (.obj (.cons "name" (.str "ns2") .nil)) .nil))]
      [(Value.str "ns1",
          [((Value.str "Pod", Value.str "p"),
            Value.obj (.cons "kind" (.str "Pod")
              (.cons "metadata" (.obj (.cons "namespace" (.str "ns1")
                (.cons "name" (.str "p") .nil))) .nil)))]),
        (Value.null,
          [((Value.str "Namespace", Value.str "ns2"),
            Value.obj (.cons "kind" (.str "Namespace")
              (.cons "metadata" (.obj (.cons "name" (.str "ns2") .nil)) .nil)))]),
        (Value.str "ns2", [])]
      rfl⟩

/-! ### Failing fast on malformed records -/

theorem gather_aux_append (acc : Hierarchy) (l₁ l₂ : List Value) :
    gather_objects_aux acc (l₁ ++ l₂) =
      match gather_objects_aux acc l₁ with
      | .ok acc' => gather_objects_aux acc' l₂
      | .error e => .error e := by
  induction l₁ generalizing acc with
  | nil => simp [gather_objects_aux]
  | cons obj rest ih =>
    simp only [List.cons_append, gather_objects_aux]
    cases gather_step acc obj with
    | ok acc' => exact ih acc'
    | error e => rfl

/-- C2 (counterexample): a record with `kind` present and mapping
`metadata` that merely lacks `metadata.name` does not make
`gather_objects` raise — the record is grouped under a null name. -/
theorem missing_name_not_an_error :
    gather_objects [Value.obj (.cons "kind" (.str "ConfigMap")
        (.cons "metadata" (.obj .nil) .nil))]
      = .ok [(Value.null,
          [((Value.str "ConfigMap", Value.null),
            Value.obj (.cons "kind" (.str "ConfigMap")
              (.cons "metadata" (.obj .nil) .nil)))])] := rfl

/-- C2 (amended): a record with a `kind` key whose `metadata` key is
absent or not a mapping makes `gather_objects` raise once the record is
reached (any prefix having succeeded); a record with mapping `metadata`
that merely lacks `metadata.name` is not an error — it is grouped under a
null name in the bucket of its `metadata.namespace`. -/
theorem malformed_record_fails_fast (pre rest : List Value) (fields : FList)
    (acc : Hierarchy)
    (hpre : gather_objects pre = .ok acc)
    (hkind : (fields.lookup "kind").isSome = true) :
    ((∀ md, fields.lookup "metadata" ≠ some (.obj md)) →
      ∃ e, gather_objects (pre ++ Value.obj fields :: rest) = .error e) ∧
    (∀ md, fields.lookup "metadata" = some (.obj md) → md.lookup "name" = none →
      ∃ h b, gather_objects (pre ++ [Value.obj fields]) = .ok h ∧
        odLookup h ((md.lookup "namespace").getD .null) = some b ∧
        odContains b ((fields.lookup "kind").getD .null, Value.null) = true) := by
  have hin : (fields.lookup "kind").isNone = false := by
    cases hkk : fields.lookup "kind" with
    | none => rw [hkk] at hkind; simp at hkind
    | some kv => rfl
  have hpre' : gather_objects_aux [] pre = .ok acc := hpre
  constructor
  · intro hbad
    have hstep : ∃ e', gather_step acc (.obj fields) = .error e' := by
      simp only [gather_step, hin]
      rw [if_neg (by simp)]
      cases hmeta : fields.lookup "metadata" with
      | none => exact ⟨_, rfl⟩
      | some v =>
        cases v with
        | obj md => exact absurd hmeta (hbad md)
        | null => exact ⟨_, rfl⟩
        | bool b => exact ⟨_, rfl⟩
        | int n => exact ⟨_, rfl⟩
        | str s => exact ⟨_, rfl⟩
        | arr a => exact ⟨_, rfl⟩
    rcases hstep with ⟨e', hstep⟩
    refine ⟨e', ?_⟩
    have happ := gather_aux_append [] pre (Value.obj fields :: rest)
    rw [hpre'] at happ
    show gather_objects_aux [] (pre ++ Value.obj fields :: rest) = .error e'
    rw [happ]
    show gather_objects_aux acc (Value.obj fields :: rest) = .error e'
    simp only [gather_objects_aux, hstep]
  · intro md hmeta hname
    have hid : identOf (.obj fields) = some ((fields.lookup "kind").getD .null,
        Value.null, (md.lookup "namespace").getD .null) := by
      simp only [identOf]
      cases hkk : fields.lookup "kind" with
      | none => rw [hkk] at hin; simp at hin
      | some kv => simp [hmeta, hname]
    have hstep : ∃ acc', gather_step acc (.obj fields) = .ok acc' := by
      simp only [gather_step, hin]
      rw [if_neg (by simp), hmeta]
      exact ⟨_, rfl⟩
    rcases hstep with ⟨acc', hstep⟩
    rcases gather_step_establishes hstep hid with ⟨⟨b, hb, hcb⟩, _⟩
    refine ⟨acc', b, ?_, hb, hcb⟩
    have happ := gather_aux_append [] pre [Value.obj fields]
    rw [hpre'] at happ
    show gather_objects_aux [] (pre ++ [Value.obj fields]) = .ok acc'
    rw [happ]
    show gather_objects_aux acc [Value.obj fields] = .ok acc'
    simp only [gather_objects_aux, hstep]

/-- C2 witness: the fail-fast theorem applied to the empty prefix and a
concrete record with a kind key. -/
theorem malformed_record_fails_fast_witness :
    gather_objects [] = .ok [] ∧
    ((FList.cons "kind" (Value.str "ConfigMap") FList.nil).lookup "kind").isSome = true ∧
    (((∀ md, (FList.cons "kind" (Value.str "ConfigMap") FList.nil).lookup "metadata"
          ≠ some (.obj md)) →
        ∃ e, gather_objects
          ([] ++ Value.obj (FList.cons "kind" (Value.str "ConfigMap") FList.nil) :: [])
          = .error e) ∧
      (∀ md, (FList.cons "kind" (Value.str "ConfigMap") FList.nil).lookup "metadata"
          = some (.obj md) → md.lookup "name" = none →
        ∃ h b, gather_objects
            ([] ++ [Value.obj (FList.cons "kind" (Value.str "ConfigMap") FList.nil)])
            = .ok h ∧
          odLookup h ((md.lookup "namespace").getD .null) = some b ∧
          odContains b
            (((FList.cons "kind" (Value.str "ConfigMap") FList.nil).lookup "kind").getD
                .null, Value.null) = true)) :=
  ⟨rfl, by decide,
    malformed_record_fails_fast [] []
      (FList.cons "kind" (Value.str "ConfigMap") FList.nil) [] rfl (by decide)⟩

end Enkube
